import Mathlib

/-
  Verification of the fast-distances library.

  The library's metrics are generic over a floating-point scalar type; the
  shallow embedding models that scalar type as the real numbers, vectors as
  lists of reals, and every out-of-bounds indexing / failed assertion of the
  source as an Option-returning function producing none.  Where the source's
  control flow produces an IEEE non-numeric value (0.0/0.0), a dedicated
  value type with an explicit NaN constructor is used.  Indexed loops
  `for i in 0..x.len()` become sums over Finset.range x.length with list
  indexing List.getD i 0 (the default never fires: every access the source
  performs in bounds is guarded by the surrounding length checks).
-/

open scoped Classical

noncomputable section

namespace FastDistances

/-- Embedding of poincare (src/distances/poincare.rs).  The source
short-circuits to zero when both inputs are all-zero; otherwise it computes
delta = 2·‖u−v‖² / ((1−‖u‖²)(1−‖v‖²)) and returns (1 + delta).ln_1p(),
which is log (1 + (1 + delta)).  The squared norms run over each full
vector, while the squared distance runs over the iterator zip of the two. -/
def poincare (u v : List ℝ) : ℝ :=
  if (∀ a ∈ u, a = 0) ∧ (∀ b ∈ v, b = 0) then 0
  else
    let sq_u_norm := (u.map (fun a => a * a)).sum
    let sq_v_norm := (v.map (fun a => a * a)).sum
    let sq_dist := ((u.zip v).map (fun p => (p.1 - p.2) ^ 2)).sum
    let delta := 2 * sq_dist / ((1 - sq_u_norm) * (1 - sq_v_norm))
    Real.log (1 + (1 + delta))

/-- Modelled from the spec: the inverse hyperbolic cosine, which the source
never computes (Mathlib 4.14 has no Real.arcosh); for t ≥ 1 it is
log (t + sqrt (t² − 1)). -/
def arcosh (t : ℝ) : ℝ := Real.log (t + Real.sqrt (t ^ 2 - 1))

/-- Modelled from the spec: the Poincaré distance
acosh(1 + 2‖u−v‖² / ((1−‖u‖²)(1−‖v‖²))) with the same all-zero
short-circuit as the source. -/
def poincareSpec (u v : List ℝ) : ℝ :=
  if (∀ a ∈ u, a = 0) ∧ (∀ b ∈ v, b = 0) then 0
  else
    arcosh (1 + 2 * ((u.zip v).map (fun p => (p.1 - p.2) ^ 2)).sum /
      ((1 - (u.map (fun a => a * a)).sum) * (1 - (v.map (fun a => a * a)).sum)))

/-- Embedding of approx_log_gamma (src/distances/log_beta.rs): Stirling's
approximation with the x = 1 special case returning exactly 0. -/
def approx_log_gamma (x : ℝ) : ℝ :=
  if x = 1 then 0
  else x * Real.log x - x + 0.5 * Real.log (2 * Real.pi / x) + 1 / (x * 12)

/-- Embedding of log_single_beta (src/distances/log_single_beta.rs and the
identical private copy in src/distances/ll_dirichlet.rs). -/
def log_single_beta (x : ℝ) : ℝ :=
  Real.log 2 * (-2 * x + 0.5) + 0.5 * Real.log (2 * Real.pi / x) + 0.125 / x

/-- Trace of the series loop shared by both log_beta implementations:
starting from -log b, iteration i adds log i - log (b + i); logBetaSeries b k
is the value after the iterations i = 1, ..., k. -/
def logBetaSeries (b : ℝ) : ℕ → ℝ
  | 0 => -Real.log b
  | k + 1 => logBetaSeries b k + (Real.log (k + 1) - Real.log (b + (k + 1)))

/-- Rust's to_i64 on a real value: truncation toward zero. -/
def rustTruncToInt (r : ℝ) : ℤ := if 0 ≤ r then ⌊r⌋ else ⌈r⌉

/-- Embedding of the public log_beta (src/distances/log_beta.rs).  Its while
loop runs i = 1, 2, ... while i < a, so it performs ⌈a − 1⌉ (clamped to ℕ)
iterations; its asymptotic branch uses approx_log_gamma. -/
def log_beta (x y : ℝ) : ℝ :=
  let a := min x y
  let b := max x y
  if b < 5 then logBetaSeries b (⌈a - 1⌉).toNat
  else approx_log_gamma x + approx_log_gamma y - approx_log_gamma (x + y)

/-- Embedding of the private log_beta inside src/distances/ll_dirichlet.rs.
Its for loop runs i = 1, ..., a.to_i64() − 1, and its asymptotic branch uses
log_single_beta instead of approx_log_gamma. -/
def ll_log_beta (x y : ℝ) : ℝ :=
  let a := min x y
  let b := max x y
  if b < 5 then logBetaSeries b (rustTruncToInt a - 1).toNat
  else log_single_beta x + log_single_beta y - log_single_beta (x + y)

/-- Loop body of ll_dirichlet (src/distances/ll_dirichlet.rs): the state is
(log_b, self_denom1, self_denom2); a coordinate pair enters the pairwise
total and both denominators when the product of the two counts exceeds 0.9,
and otherwise each count exceeding 0.9 enters only its own denominator. -/
def llStep (s : ℝ × ℝ × ℝ) (p : ℝ × ℝ) : ℝ × ℝ × ℝ :=
  if p.1 * p.2 > 0.9 then
    (s.1 + ll_log_beta p.1 p.2, s.2.1 + log_single_beta p.1, s.2.2 + log_single_beta p.2)
  else
    (s.1,
     if p.1 > 0.9 then s.2.1 + log_single_beta p.1 else s.2.1,
     if p.2 > 0.9 then s.2.2 + log_single_beta p.2 else s.2.2)

/-- Embedding of ll_dirichlet (src/distances/ll_dirichlet.rs).  The loop
indexes data2[i] for every i below data1's length, so a shorter data2 is an
out-of-bounds panic, modelled as none. -/
def ll_dirichlet (data1 data2 : List ℝ) : Option ℝ :=
  if data2.length < data1.length then none
  else
    let n1 := data1.sum
    let n2 := data2.sum
    let s := (data1.zip data2).foldl llStep (0, 0, 0)
    some (Real.sqrt (
      1 / n2 * (s.1 - ll_log_beta n1 n2 - (s.2.2 - log_single_beta n2)) +
      1 / n1 * (s.1 - ll_log_beta n2 n1 - (s.2.1 - log_single_beta n1))))

/-- Embedding of cosine (src/distances/cosine.rs).  The loop runs over
indices of x and indexes y at each of them — there is no length assertion,
so only a y shorter than x panics (none); a longer y is silently accepted
with its trailing components never read. -/
def cosine (x y : List ℝ) : Option ℝ :=
  if y.length < x.length then none
  else
    let result := ∑ i ∈ Finset.range x.length, x.getD i 0 * y.getD i 0
    let norm_x := ∑ i ∈ Finset.range x.length, x.getD i 0 * x.getD i 0
    let norm_y := ∑ i ∈ Finset.range x.length, y.getD i 0 * y.getD i 0
    some (if norm_x = 0 ∧ norm_y = 0 then 0
      else if norm_x = 0 ∨ norm_y = 0 then 1
      else 1 - result / (Real.sqrt norm_x * Real.sqrt norm_y))

/-- Embedding of hellinger (src/distances/hellinger.rs); like cosine it has
no length assertion and loops over x's indices. -/
def hellinger (x y : List ℝ) : Option ℝ :=
  if y.length < x.length then none
  else
    let result := ∑ i ∈ Finset.range x.length, Real.sqrt (x.getD i 0 * y.getD i 0)
    let l1_norm_x := ∑ i ∈ Finset.range x.length, x.getD i 0
    let l1_norm_y := ∑ i ∈ Finset.range x.length, y.getD i 0
    some (if l1_norm_x = 0 ∧ l1_norm_y = 0 then 0
      else if l1_norm_x = 0 ∨ l1_norm_y = 0 then 1
      else 1 - result / Real.sqrt (l1_norm_x * l1_norm_y))

/-- Embedding of correlation (src/distances/correlation.rs); no length
assertion, loops over x's indices, but mu_y is divided by y's full length. -/
def correlation (x y : List ℝ) : Option ℝ :=
  if y.length < x.length then none
  else
    let mu_x := (∑ i ∈ Finset.range x.length, x.getD i 0) / (x.length : ℝ)
    let mu_y := (∑ i ∈ Finset.range x.length, y.getD i 0) / (y.length : ℝ)
    let norm_x := ∑ i ∈ Finset.range x.length, (x.getD i 0 - mu_x) * (x.getD i 0 - mu_x)
    let norm_y := ∑ i ∈ Finset.range x.length, (y.getD i 0 - mu_y) * (y.getD i 0 - mu_y)
    let dot_product := ∑ i ∈ Finset.range x.length,
      (x.getD i 0 - mu_x) * (y.getD i 0 - mu_y)
    some (if norm_x = 0 ∧ norm_y = 0 then 0
      else if dot_product = 0 then 1
      else 1 - dot_product / (Real.sqrt norm_x * Real.sqrt norm_y))

/-- Embedding of euclidean (src/distances/euclidean.rs): asserts equal
lengths, then sums squared differences and takes the square root. -/
def euclidean (x y : List ℝ) : Option ℝ :=
  if x.length = y.length then
    some (Real.sqrt (∑ i ∈ Finset.range x.length,
      (x.getD i 0 - y.getD i 0) * (x.getD i 0 - y.getD i 0)))
  else none

/-- Embedding of manhattan (src/distances/manhattan.rs): asserts equal
lengths, then sums absolute differences over the iterator zip. -/
def manhattan (x y : List ℝ) : Option ℝ :=
  if x.length = y.length then some (((x.zip y).map fun p => |p.1 - p.2|).sum)
  else none

/-- Embedding of canberra (src/distances/canberra.rs): asserts equal
lengths; a term with non-positive denominator |xᵢ|+|yᵢ| contributes 0. -/
def canberra (x y : List ℝ) : Option ℝ :=
  if x.length = y.length then
    some (∑ i ∈ Finset.range x.length,
      if |x.getD i 0| + |y.getD i 0| > 0 then
        |x.getD i 0 - y.getD i 0| / (|x.getD i 0| + |y.getD i 0|)
      else 0)
  else none

/-- Embedding of chebyshev (src/distances/chebyshev.rs): asserts equal
lengths, then folds max over absolute differences starting from 0. -/
def chebyshev (x y : List ℝ) : Option ℝ :=
  if x.length = y.length then
    some (((x.zip y).map fun p => |p.1 - p.2|).foldl max 0)
  else none

/-- Embedding of haversine (src/distances/haversine.rs): panics unless both
inputs have length exactly 2. -/
def haversine (x y : List ℝ) : Option ℝ :=
  if x.length = 2 ∧ y.length = 2 then
    let sin_lat := Real.sin (0.5 * (x.getD 0 0 - y.getD 0 0))
    let sin_long := Real.sin (0.5 * (x.getD 1 0 - y.getD 1 0))
    some (2 * Real.arcsin (Real.sqrt
      (sin_lat ^ 2 + Real.cos (x.getD 0 0) * Real.cos (y.getD 0 0) * sin_long ^ 2)))
  else none

/-- Embedding of standardised_euclidean
(src/distances/standardised_euclidean.rs): asserts equal lengths; sigma
defaults to a ones vector of x's length; an explicitly provided sigma
shorter than x is an out-of-bounds panic (none). -/
def standardised_euclidean (x y : List ℝ) (sigma : Option (List ℝ)) : Option ℝ :=
  if x.length = y.length then
    let s := sigma.getD (List.replicate x.length 1)
    if s.length < x.length then none
    else
      some (Real.sqrt (∑ i ∈ Finset.range x.length,
        ((x.getD i 0 - y.getD i 0) * (x.getD i 0 - y.getD i 0)) / s.getD i 0))
  else none

/-- Embedding of identity_matrix (src/utils.rs): an n×n zero matrix whose
first n diagonal entries are set to 1. -/
def identity_matrix (n : ℕ) : ℕ → ℕ → ℝ := fun i j => if i = j ∧ i < n then 1 else 0

/-- Embedding of mahalanobis (src/distances/mahalanobis.rs): vinv defaults
to the identity matrix of x's length; diff indexes y at x's indices, so a
shorter y is an out-of-bounds panic (none). -/
def mahalanobis (x y : List ℝ) (vinv : Option (ℕ → ℕ → ℝ)) : Option ℝ :=
  if y.length < x.length then none
  else
    let V := vinv.getD (identity_matrix x.length)
    some (Real.sqrt (∑ i ∈ Finset.range x.length,
      (∑ j ∈ Finset.range x.length, V i j * (x.getD j 0 - y.getD j 0)) *
        (x.getD i 0 - y.getD i 0)))

/-- Embedding of minkowski (src/distances/minkowski.rs): asserts equal
lengths; |xᵢ−yᵢ|^p summed, then raised to 1/p (powf is real rpow). -/
def minkowski (x y : List ℝ) (p : ℝ) : Option ℝ :=
  if x.length = y.length then
    some ((∑ i ∈ Finset.range x.length, |x.getD i 0 - y.getD i 0| ^ p) ^ (1 / p))
  else none

/-- Embedding of weighted_minkowski (src/distances/weighted_minkowski.rs):
no length assertion (a shorter y or w is an out-of-bounds panic); w
defaults to a ones vector of x's length. -/
def weighted_minkowski (x y : List ℝ) (w : Option (List ℝ)) (p : ℝ) : Option ℝ :=
  if y.length < x.length then none
  else
    let wl := w.getD (List.replicate x.length 1)
    if wl.length < x.length then none
    else
      some ((∑ i ∈ Finset.range x.length,
        wl.getD i 0 * |x.getD i 0 - y.getD i 0| ^ p) ^ (1 / p))

/-- Embedding of russell_rao (src/distances/russellrao.rs).  num_true_true
counts positions (over x's indices) where both entries are non-zero; sum_x
and sum_y count the non-zero entries of each full vector; the counts are
compared as floats. -/
def russell_rao (x y : List ℝ) : Option ℝ :=
  if y.length < x.length then none
  else
    let num_true_true := ((((x.zip y).filter fun p => p.1 ≠ 0 ∧ p.2 ≠ 0).length : ℕ) : ℝ)
    let sum_x := (((x.filter fun a => a ≠ 0).length : ℕ) : ℝ)
    let sum_y := (((y.filter fun b => b ≠ 0).length : ℕ) : ℝ)
    some (if num_true_true = sum_x ∧ num_true_true = sum_y then 0
      else ((x.length : ℝ) - num_true_true) / (x.length : ℝ))

/-- Rust's f64::signum restricted to non-NaN reals: -1 for negatives,
+1 otherwise (Rust's signum of +0.0 is +1.0). -/
def rustSignum (r : ℝ) : ℝ := if r < 0 then -1 else 1

/-- Loop of chebyshev_grad (src/distances/chebyshev_grad.rs): walks the
zipped pairs carrying (result, max_i), updating both only on a strict
increase of the absolute difference — so ties keep the earliest index. -/
def chebGradLoop : List (ℝ × ℝ) → ℕ → ℝ × ℕ → ℝ × ℕ
  | [], _, s => s
  | p :: rest, i, s =>
      chebGradLoop rest (i + 1) (if |p.1 - p.2| > s.1 then (|p.1 - p.2|, i) else s)

/-- Embedding of chebyshev_grad (src/distances/chebyshev_grad.rs): asserts
equal lengths; the gradient is all zeros except, when the distance is
non-zero, the entry at max_i which is signum(x[max_i] − y[max_i]). -/
def chebyshev_grad (x y : List ℝ) : Option (ℝ × List ℝ) :=
  if x.length = y.length then
    let s := chebGradLoop (x.zip y) 0 (0, 0)
    some (s.1, (List.range x.length).map fun j =>
      if s.1 ≠ 0 ∧ j = s.2 then rustSignum (x.getD s.2 0 - y.getD s.2 0) else 0)
  else none

/-- Value type for the two binary metrics whose final division can produce
an IEEE non-numeric or infinite value. -/
inductive F64v
  | num (r : ℝ)
  | nan
  | posInf
  | negInf

/-- IEEE division on non-NaN finite operands: 0/0 is NaN, a nonzero
numerator over zero is a signed infinity, otherwise the real quotient. -/
def fdiv (a b : ℝ) : F64v :=
  if b = 0 then (if a = 0 then F64v.nan else if 0 < a then F64v.posInf else F64v.negInf)
  else F64v.num (a / b)

/-- Embedding of matching (src/distances/matching.rs): counts positions
(over x's indices) where exactly one entry is non-zero, divided by x's
length. -/
def matching (x y : List ℝ) : Option F64v :=
  if y.length < x.length then none
  else
    let num_not_equal := ((((x.zip y).filter fun p => ¬ ((p.1 ≠ 0) ↔ (p.2 ≠ 0))).length : ℕ) : ℝ)
    some (fdiv num_not_equal (x.length : ℝ))

/-- Embedding of rogers_tanimoto (src/distances/rogers_tanimoto.rs):
(2·mismatches) / (length + mismatches). -/
def rogers_tanimoto (x y : List ℝ) : Option F64v :=
  if y.length < x.length then none
  else
    let num_not_equal := ((((x.zip y).filter fun p => ¬ ((p.1 ≠ 0) ↔ (p.2 ≠ 0))).length : ℕ) : ℝ)
    some (fdiv (2 * num_not_equal) ((x.length : ℝ) + num_not_equal))

lemma logBetaSeries_eq_sum (b : ℝ) (k : ℕ) :
    logBetaSeries b k =
      -Real.log b + ∑ i ∈ Finset.range k, (Real.log (i + 1) - Real.log (b + (i + 1))) := by
  induction k with
  | zero => simp [logBetaSeries]
  | succ k ih => rw [logBetaSeries, ih, Finset.sum_range_succ]; ring

lemma llFold_spec (l : List (ℝ × ℝ)) (s : ℝ × ℝ × ℝ) :
    l.foldl llStep s =
      (s.1 + ((l.filter fun p => p.1 * p.2 > 0.9).map fun p => ll_log_beta p.1 p.2).sum,
       s.2.1 + ((l.filter fun p => p.1 * p.2 > 0.9 ∨ p.1 > 0.9).map
         fun p => log_single_beta p.1).sum,
       s.2.2 + ((l.filter fun p => p.1 * p.2 > 0.9 ∨ p.2 > 0.9).map
         fun p => log_single_beta p.2).sum) := by
  induction l generalizing s with
  | nil => simp
  | cons p t ih =>
    rw [List.foldl_cons, ih]
    by_cases h1 : p.1 * p.2 > 0.9
    · have hs : llStep s p =
          (s.1 + ll_log_beta p.1 p.2, s.2.1 + log_single_beta p.1,
           s.2.2 + log_single_beta p.2) := by
        rw [llStep, if_pos h1]
      rw [hs]
      simp only [List.filter_cons, decide_eq_true_eq, h1, true_or, if_true,
        List.map_cons, List.sum_cons, Prod.mk.injEq]
      refine ⟨by ring, by ring, by ring⟩
    · have hs : llStep s p =
          (s.1,
           if p.1 > 0.9 then s.2.1 + log_single_beta p.1 else s.2.1,
           if p.2 > 0.9 then s.2.2 + log_single_beta p.2 else s.2.2) := by
        rw [llStep, if_neg h1]
      rw [hs]
      by_cases h2 : p.1 > 0.9 <;> by_cases h3 : p.2 > 0.9 <;>
        simp [List.filter_cons, h1, h2, h3, Prod.mk.injEq] <;>
        and_intros <;> ring

lemma getD_take_of_lt (l : List ℝ) (n i : ℕ) (d : ℝ) (h : i < n) :
    (l.take n).getD i d = l.getD i d := by
  simp [List.getD_eq_getElem?_getD, List.getElem?_take, h]

/-- C1: the claim says poincare returns acosh(1 + delta).  The code instead
returns ln_1p(1 + delta) = log (2 + delta): on u = v = [1/2, 1/2, 1/2]
(delta = 0) the code yields log 2 ≈ 0.693 while the documented formula
acosh(1) is 0, so the code contradicts its own doc comment. -/
theorem poincare_returns_log_two_not_acosh :
    poincare [(1 : ℝ)/2, 1/2, 1/2] [(1 : ℝ)/2, 1/2, 1/2] = Real.log 2 ∧
    poincareSpec [(1 : ℝ)/2, 1/2, 1/2] [(1 : ℝ)/2, 1/2, 1/2] = 0 ∧
    Real.log 2 ≠ 0 := by
  refine ⟨?_, ?_, ne_of_gt (Real.log_pos (by norm_num))⟩
  · rw [poincare, if_neg (by norm_num)]
    norm_num
  · rw [poincareSpec, if_neg (by norm_num)]
    norm_num [arcosh]

/-- C2 counterexample: on the asymptotic path the public log_beta does not
return log_single_beta(x) + log_single_beta(y) − log_single_beta(x+y); at
x = y = 10 the two quantities differ by exactly 20.5·log 2 + 1/160. -/
theorem log_beta_ten_ten_ne_log_single_beta_combination :
    log_beta 10 10 ≠ log_single_beta 10 + log_single_beta 10 - log_single_beta 20 := by
  have h2 : (0 : ℝ) < Real.log 2 := Real.log_pos (by norm_num)
  have h20 : Real.log 20 = Real.log 10 + Real.log 2 := by
    rw [show (20 : ℝ) = 10 * 2 by norm_num, Real.log_mul (by norm_num) (by norm_num)]
  intro h
  simp only [log_beta, approx_log_gamma, log_single_beta, max_self, min_self] at h
  rw [if_neg (by norm_num : ¬ (10 : ℝ) < 5), if_neg (by norm_num : ¬ (10 : ℝ) = 1),
    if_neg (by norm_num : ¬ (10 : ℝ) + 10 = 1)] at h
  rw [show (10 : ℝ) + 10 = 20 by norm_num] at h
  rw [h20] at h
  linarith [h, h2]

/-- C2 amended: log_beta branches on max(x,y) against the threshold 5; below
it, it computes the telescoping series with the loop bound derived from
min(x,y) (so log_beta(1,2) takes the series path and equals -log 2, within
1e-7 of -0.6931472); otherwise the public log_beta returns the
approx_log_gamma combination (and the ll_dirichlet-private log_beta the
log_single_beta combination), so log_beta(10,10) takes the asymptotic path. -/
theorem log_beta_two_regimes (x y : ℝ) :
    (max x y < 5 →
      log_beta x y =
        -Real.log (max x y) +
          ∑ i ∈ Finset.range (⌈min x y - 1⌉).toNat,
            (Real.log (i + 1) - Real.log (max x y + (i + 1)))) ∧
    (¬ max x y < 5 →
      log_beta x y = approx_log_gamma x + approx_log_gamma y - approx_log_gamma (x + y)) ∧
    (¬ max x y < 5 →
      ll_log_beta x y = log_single_beta x + log_single_beta y - log_single_beta (x + y)) ∧
    log_beta 1 2 = -Real.log 2 ∧
    |(-Real.log 2) - (-0.6931472)| < 1e-7 ∧
    ¬ max (10 : ℝ) 10 < 5 ∧
    log_beta 10 10 = approx_log_gamma 10 + approx_log_gamma 10 - approx_log_gamma 20 := by
  refine ⟨?_, ?_, ?_, ?_, ?_, by norm_num, ?_⟩
  · intro hb
    rw [log_beta, if_pos hb, logBetaSeries_eq_sum]
  · intro hb
    rw [log_beta, if_neg hb]
  · intro hb
    rw [ll_log_beta, if_neg hb]
  · have h1 : max (1 : ℝ) 2 = 2 := by norm_num
    have h2 : min (1 : ℝ) 2 = 1 := by norm_num
    rw [log_beta]
    simp only [h1, h2]
    rw [if_pos (by norm_num : (2 : ℝ) < 5)]
    norm_num [logBetaSeries]
  · rw [abs_lt]
    constructor <;> nlinarith [Real.log_two_gt_d9, Real.log_two_lt_d9]
  · rw [log_beta]
    simp only [max_self, min_self]
    rw [if_neg (by norm_num : ¬ (10 : ℝ) < 5)]
    norm_num

/-- Witness for log_beta_two_regimes: both branch hypotheses discharged at
concrete inputs (series path at (1,2), asymptotic path at (10,10)). -/
theorem log_beta_two_regimes_witness :
    log_beta 1 2 =
      -Real.log (max (1 : ℝ) 2) +
        ∑ i ∈ Finset.range (⌈min (1 : ℝ) 2 - 1⌉).toNat,
          (Real.log (i + 1) - Real.log (max (1 : ℝ) 2 + (i + 1))) ∧
    log_beta 10 10 = approx_log_gamma 10 + approx_log_gamma 10 - approx_log_gamma (10 + 10) ∧
    ll_log_beta 10 10 = log_single_beta 10 + log_single_beta 10 - log_single_beta (10 + 10) :=
  ⟨(log_beta_two_regimes 1 2).1 (by norm_num),
   ((log_beta_two_regimes 10 10).2.1) (by norm_num),
   ((log_beta_two_regimes 10 10).2.2.1) (by norm_num)⟩

/-- C3 counterexample: the gate on a coordinate is the product condition
data1ᵢ·data2ᵢ > 0.9, not "both counts exceed 0.9": at the pair (1/2, 4) the
first count does not exceed 0.9, yet the loop body adds
ll_log_beta(1/2, 4) = -log 4 ≠ 0 to the pairwise total (and log_single_beta
of each count to both denominators). -/
theorem llStep_fires_without_both_counts_positive :
    ¬ ((1 : ℝ)/2 > 0.9) ∧
    (llStep (0, 0, 0) ((1 : ℝ)/2, 4)).1 = ll_log_beta ((1 : ℝ)/2) 4 ∧
    ll_log_beta ((1 : ℝ)/2) 4 ≠ 0 := by
  have hv : ll_log_beta ((1 : ℝ)/2) 4 = -Real.log 4 := by
    rw [ll_log_beta]
    have hmin : min ((1 : ℝ)/2) 4 = 1/2 := by norm_num
    have hmax : max ((1 : ℝ)/2) 4 = 4 := by norm_num
    simp only [hmin, hmax]
    rw [if_pos (by norm_num : (4 : ℝ) < 5)]
    have ht : rustTruncToInt ((1 : ℝ)/2) = 0 := by
      rw [rustTruncToInt, if_pos (by norm_num : (0 : ℝ) ≤ 1/2)]
      norm_num [Int.floor_eq_zero_iff]
    rw [ht]
    norm_num [logBetaSeries]
  refine ⟨by norm_num, ?_, ?_⟩
  · rw [llStep, if_pos (by norm_num : ((1 : ℝ)/2, (4 : ℝ)).1 * ((1 : ℝ)/2, (4 : ℝ)).2 > 0.9)]
    norm_num
  · rw [hv]
    have := Real.log_pos (by norm_num : (1 : ℝ) < 4)
    intro h
    rw [neg_eq_zero] at h
    linarith

/-- C3 amended: a coordinate contributes ll_log_beta(data1ᵢ, data2ᵢ) to the
pairwise total (and log_single_beta of each count to both denominators)
exactly when data1ᵢ·data2ᵢ > 0.9 — which coincides with "both counts > 0.9"
for natural-number counts — and a coordinate failing the product test
contributes log_single_beta(data1ᵢ) to data1's denominator iff
data1ᵢ > 0.9, and symmetrically for data2. -/
theorem ll_dirichlet_contribution_structure (data1 data2 : List ℝ) :
    ((data1.zip data2).foldl llStep (0, 0, 0) =
      ((((data1.zip data2).filter fun p => p.1 * p.2 > 0.9).map
          fun p => ll_log_beta p.1 p.2).sum,
       (((data1.zip data2).filter fun p => p.1 * p.2 > 0.9 ∨ p.1 > 0.9).map
          fun p => log_single_beta p.1).sum,
       (((data1.zip data2).filter fun p => p.1 * p.2 > 0.9 ∨ p.2 > 0.9).map
          fun p => log_single_beta p.2).sum)) ∧
    (∀ m k : ℕ, ((m : ℝ) * (k : ℝ) > 0.9 ↔ ((m : ℝ) > 0.9 ∧ (k : ℝ) > 0.9))) := by
  constructor
  · rw [llFold_spec]
    norm_num
  · intro m k
    constructor
    · intro h
      have hm : m ≠ 0 := by rintro rfl; norm_num at h
      have hk : k ≠ 0 := by rintro rfl; norm_num at h
      have hm1 : (1 : ℝ) ≤ (m : ℝ) := by exact_mod_cast Nat.one_le_iff_ne_zero.mpr hm
      have hk1 : (1 : ℝ) ≤ (k : ℝ) := by exact_mod_cast Nat.one_le_iff_ne_zero.mpr hk
      constructor <;> linarith
    · rintro ⟨h1, h2⟩
      have hm : m ≠ 0 := by rintro rfl; norm_num at h1
      have hk : k ≠ 0 := by rintro rfl; norm_num at h2
      have hm1 : (1 : ℝ) ≤ (m : ℝ) := by exact_mod_cast Nat.one_le_iff_ne_zero.mpr hm
      have hk1 : (1 : ℝ) ≤ (k : ℝ) := by exact_mod_cast Nat.one_le_iff_ne_zero.mpr hk
      have hmul : (1 : ℝ) * 1 ≤ (m : ℝ) * (k : ℝ) :=
        mul_le_mul hm1 hk1 zero_le_one (le_trans zero_le_one hm1)
      rw [one_mul] at hmul
      linarith

/-- C4: for equal-length vectors, cosine returns exactly 0 when both
accumulated squared norms are zero and exactly 1 when exactly one of them
is zero; in particular cosine([0,0,0], [1,2,3]) = 1 and cosine of two zero
vectors = 0. -/
theorem cosine_degenerate_policy (x y : List ℝ) (h : x.length = y.length) :
    ((∑ i ∈ Finset.range x.length, x.getD i 0 * x.getD i 0) = 0 →
      (∑ i ∈ Finset.range x.length, y.getD i 0 * y.getD i 0) = 0 →
        cosine x y = some 0) ∧
    ((∑ i ∈ Finset.range x.length, x.getD i 0 * x.getD i 0) = 0 →
      (∑ i ∈ Finset.range x.length, y.getD i 0 * y.getD i 0) ≠ 0 →
        cosine x y = some 1) ∧
    ((∑ i ∈ Finset.range x.length, x.getD i 0 * x.getD i 0) ≠ 0 →
      (∑ i ∈ Finset.range x.length, y.getD i 0 * y.getD i 0) = 0 →
        cosine x y = some 1) ∧
    cosine [(0 : ℝ), 0, 0] [(1 : ℝ), 2, 3] = some 1 ∧
    cosine [(0 : ℝ), 0, 0] [(0 : ℝ), 0, 0] = some 0 := by
  have hg : ¬ y.length < x.length := by omega
  refine ⟨?_, ?_, ?_, ?_, ?_⟩
  · intro h1 h2
    simp only [cosine]
    rw [if_neg hg, if_pos ⟨h1, h2⟩]
  · intro h1 h2
    simp only [cosine]
    rw [if_neg hg, if_neg (by tauto), if_pos (Or.inl h1)]
  · intro h1 h2
    simp only [cosine]
    rw [if_neg hg, if_neg (by tauto), if_pos (Or.inr h2)]
  · norm_num [cosine, Finset.sum_range_succ]
  · norm_num [cosine, Finset.sum_range_succ]

/-- Witness for cosine_degenerate_policy: the three zero-norm branches
discharged at concrete one-element vectors. -/
theorem cosine_degenerate_policy_witness :
    cosine [(0 : ℝ)] [(0 : ℝ)] = some 0 ∧
    cosine [(0 : ℝ)] [(2 : ℝ)] = some 1 ∧
    cosine [(2 : ℝ)] [(0 : ℝ)] = some 1 := by
  refine ⟨(cosine_degenerate_policy [(0 : ℝ)] [(0 : ℝ)] rfl).1 ?_ ?_,
    ((cosine_degenerate_policy [(0 : ℝ)] [(2 : ℝ)] rfl).2.1) ?_ ?_,
    ((cosine_degenerate_policy [(2 : ℝ)] [(0 : ℝ)] rfl).2.2.1) ?_ ?_⟩ <;>
    norm_num [Finset.sum_range_succ]

lemma getD_replicate_one (n i : ℕ) (hi : i < n) :
    (List.replicate n (1 : ℝ)).getD i 0 = 1 := by
  simp [List.getD_eq_getElem?_getD, List.getElem?_replicate, hi]

/-- C5: each optional parameter's default reduces the generalized metric to
the plain one exactly: standardised_euclidean with no sigma (equivalently
an all-ones sigma) is plain euclidean, mahalanobis with no inverse
covariance is euclidean, and weighted_minkowski with no weights is
minkowski, for all equal-length vectors and any exponent p. -/
theorem default_parameters_reduce (x y : List ℝ) (p : ℝ) (h : x.length = y.length) :
    standardised_euclidean x y none = euclidean x y ∧
    standardised_euclidean x y (some (List.replicate x.length 1)) = euclidean x y ∧
    mahalanobis x y none = euclidean x y ∧
    weighted_minkowski x y none p = minkowski x y p := by
  have hg : ¬ y.length < x.length := by omega
  have hsum : (∑ i ∈ Finset.range x.length,
      ((x.getD i 0 - y.getD i 0) * (x.getD i 0 - y.getD i 0)) /
        (List.replicate x.length (1 : ℝ)).getD i 0) =
      ∑ i ∈ Finset.range x.length, (x.getD i 0 - y.getD i 0) * (x.getD i 0 - y.getD i 0) :=
    Finset.sum_congr rfl fun i hi => by
      rw [getD_replicate_one x.length i (Finset.mem_range.mp hi), div_one]
  refine ⟨?_, ?_, ?_, ?_⟩
  · simp only [standardised_euclidean, Option.getD_none, euclidean]
    rw [if_pos h, if_pos h, if_neg (by simp), hsum]
  · simp only [standardised_euclidean, Option.getD_some, euclidean]
    rw [if_pos h, if_pos h, if_neg (by simp), hsum]
  · have hinner : ∀ i ∈ Finset.range x.length,
        (∑ j ∈ Finset.range x.length,
            identity_matrix x.length i j * (x.getD j 0 - y.getD j 0)) *
          (x.getD i 0 - y.getD i 0) =
        (x.getD i 0 - y.getD i 0) * (x.getD i 0 - y.getD i 0) := by
      intro i hi
      have hterm : ∀ j ∈ Finset.range x.length,
          identity_matrix x.length i j * (x.getD j 0 - y.getD j 0) =
            if i = j then x.getD j 0 - y.getD j 0 else 0 := by
        intro j hj
        by_cases hij : i = j
        · simp [identity_matrix, hij, Finset.mem_range.mp hi, hij ▸ Finset.mem_range.mp hi]
        · simp [identity_matrix, hij]
      rw [Finset.sum_congr rfl hterm, Finset.sum_ite_eq]
      simp [hi]
    simp only [mahalanobis, Option.getD_none, euclidean]
    rw [if_neg hg, if_pos h, Finset.sum_congr rfl hinner]
  · have hsum2 : (∑ i ∈ Finset.range x.length,
        (List.replicate x.length (1 : ℝ)).getD i 0 * |x.getD i 0 - y.getD i 0| ^ p) =
        ∑ i ∈ Finset.range x.length, |x.getD i 0 - y.getD i 0| ^ p :=
      Finset.sum_congr rfl fun i hi => by
        rw [getD_replicate_one x.length i (Finset.mem_range.mp hi), one_mul]
    simp only [weighted_minkowski, Option.getD_none, minkowski]
    rw [if_neg hg, if_pos h, if_neg (by simp), hsum2]

/-- Witness for default_parameters_reduce at x = [1,2], y = [3,5], p = 2. -/
theorem default_parameters_reduce_witness :
    standardised_euclidean [(1 : ℝ), 2] [(3 : ℝ), 5] none =
      euclidean [(1 : ℝ), 2] [(3 : ℝ), 5] ∧
    standardised_euclidean [(1 : ℝ), 2] [(3 : ℝ), 5]
        (some (List.replicate (List.length [(1 : ℝ), 2]) 1)) =
      euclidean [(1 : ℝ), 2] [(3 : ℝ), 5] ∧
    mahalanobis [(1 : ℝ), 2] [(3 : ℝ), 5] none = euclidean [(1 : ℝ), 2] [(3 : ℝ), 5] ∧
    weighted_minkowski [(1 : ℝ), 2] [(3 : ℝ), 5] none 2 =
      minkowski [(1 : ℝ), 2] [(3 : ℝ), 5] 2 :=
  default_parameters_reduce [(1 : ℝ), 2] [(3 : ℝ), 5] 2 rfl

/-- C6: manhattan, canberra, euclidean and chebyshev return a value exactly
when the two vectors have equal lengths (otherwise the assertion fires), and
haversine returns a value exactly when both inputs are 2-dimensional (so
any 3-dimensional input is a contract failure). -/
theorem length_contracts (x y : List ℝ) :
    ((manhattan x y).isSome ↔ x.length = y.length) ∧
    ((canberra x y).isSome ↔ x.length = y.length) ∧
    ((euclidean x y).isSome ↔ x.length = y.length) ∧
    ((chebyshev x y).isSome ↔ x.length = y.length) ∧
    ((haversine x y).isSome ↔ (x.length = 2 ∧ y.length = 2)) := by
  refine ⟨?_, ?_, ?_, ?_, ?_⟩
  · rw [manhattan]; split_ifs with hc <;> simp [hc]
  · rw [canberra]; split_ifs with hc <;> simp [hc]
  · rw [euclidean]; split_ifs with hc <;> simp [hc]
  · rw [chebyshev]; split_ifs with hc <;> simp [hc]
  · rw [haversine]; split_ifs with hc <;> simp [hc]

lemma length_filter_fst_zip (x y : List ℝ) (h : x.length ≤ y.length) :
    ((x.zip y).filter fun p => p.1 ≠ 0).length = (x.filter fun a => a ≠ 0).length := by
  induction x generalizing y with
  | nil => simp
  | cons a t ih =>
    cases y with
    | nil => simp at h
    | cons b u =>
      have ih' := ih u (by simpa using h)
      simp only [List.zip_cons_cons, List.filter_cons]
      by_cases h1 : a ≠ 0 <;> simp [h1] <;> simp at ih' <;> omega

lemma length_filter_snd_zip (x y : List ℝ) (h : y.length ≤ x.length) :
    ((x.zip y).filter fun p => p.2 ≠ 0).length = (y.filter fun b => b ≠ 0).length := by
  induction x generalizing y with
  | nil => cases y with | nil => simp | cons b u => simp at h
  | cons a t ih =>
    cases y with
    | nil => simp
    | cons b u =>
      have ih' := ih u (by simpa using h)
      simp only [List.zip_cons_cons, List.filter_cons]
      by_cases h1 : b ≠ 0 <;> simp [h1] <;> simp at ih' <;> omega

lemma length_filter_both_le_fst (l : List (ℝ × ℝ)) :
    ((l.filter fun p => p.1 ≠ 0 ∧ p.2 ≠ 0).length : ℕ) ≤
      (l.filter fun p => p.1 ≠ 0).length := by
  induction l with
  | nil => simp
  | cons a t ih =>
    simp only [List.filter_cons]
    by_cases h1 : a.1 ≠ 0 <;> by_cases h2 : a.2 ≠ 0 <;>
      simp [h1, h2] <;> simp at ih <;> omega

lemma length_filter_both_le_snd (l : List (ℝ × ℝ)) :
    ((l.filter fun p => p.1 ≠ 0 ∧ p.2 ≠ 0).length : ℕ) ≤
      (l.filter fun p => p.2 ≠ 0).length := by
  induction l with
  | nil => simp
  | cons a t ih =>
    simp only [List.filter_cons]
    by_cases h1 : a.1 ≠ 0 <;> by_cases h2 : a.2 ≠ 0 <;>
      simp [h1, h2] <;> simp at ih <;> omega

lemma length_filter_both_eq_fst_iff (l : List (ℝ × ℝ)) :
    (((l.filter fun p => p.1 ≠ 0 ∧ p.2 ≠ 0).length : ℕ) =
        (l.filter fun p => p.1 ≠ 0).length) ↔
      ∀ p ∈ l, p.1 ≠ 0 → p.2 ≠ 0 := by
  induction l with
  | nil => simp
  | cons a t ih =>
    have hle := length_filter_both_le_fst t
    simp only [List.filter_cons]
    by_cases h1 : a.1 ≠ 0 <;> by_cases h2 : a.2 ≠ 0
    · simp [h1, h2]
      simp at ih
      exact ih
    · simp [h1, h2]
      simp at hle
      omega
    · simp [h1, h2]
      simp at ih
      exact ih
    · simp [h1, h2]
      simp at ih
      exact ih

lemma length_filter_both_eq_snd_iff (l : List (ℝ × ℝ)) :
    (((l.filter fun p => p.1 ≠ 0 ∧ p.2 ≠ 0).length : ℕ) =
        (l.filter fun p => p.2 ≠ 0).length) ↔
      ∀ p ∈ l, p.2 ≠ 0 → p.1 ≠ 0 := by
  induction l with
  | nil => simp
  | cons a t ih =>
    have hle := length_filter_both_le_snd t
    simp only [List.filter_cons]
    by_cases h1 : a.1 ≠ 0 <;> by_cases h2 : a.2 ≠ 0
    · simp [h1, h2]
      simp at ih
      exact ih
    · simp [h1, h2]
      simp at ih
      exact ih
    · simp [h1, h2]
      simp at hle
      omega
    · simp [h1, h2]
      simp at ih
      exact ih

/-- C7: for equal-length vectors, russell_rao returns (N − true_true)/N,
except that it is forced to exactly 0 whenever the true (non-zero)
positions of the two vectors coincide — which also covers the empty
input. -/
theorem russell_rao_spec (x y : List ℝ) (h : x.length = y.length) :
    ((∀ p ∈ x.zip y, (p.1 ≠ 0 ↔ p.2 ≠ 0)) → russell_rao x y = some 0) ∧
    (¬ (∀ p ∈ x.zip y, (p.1 ≠ 0 ↔ p.2 ≠ 0)) →
      russell_rao x y = some (((x.length : ℝ) -
        ((((x.zip y).filter fun p => p.1 ≠ 0 ∧ p.2 ≠ 0).length : ℕ) : ℝ)) /
          (x.length : ℝ))) ∧
    russell_rao ([] : List ℝ) [] = some 0 := by
  have hg : ¬ y.length < x.length := by omega
  have hsx := length_filter_fst_zip x y (le_of_eq h)
  have hsy := length_filter_snd_zip x y (le_of_eq h.symm)
  have hcond :
      (((((x.zip y).filter fun p => p.1 ≠ 0 ∧ p.2 ≠ 0).length : ℕ) : ℝ) =
          (((x.filter fun a => a ≠ 0).length : ℕ) : ℝ) ∧
        ((((x.zip y).filter fun p => p.1 ≠ 0 ∧ p.2 ≠ 0).length : ℕ) : ℝ) =
          (((y.filter fun b => b ≠ 0).length : ℕ) : ℝ)) ↔
        ∀ p ∈ x.zip y, (p.1 ≠ 0 ↔ p.2 ≠ 0) := by
    rw [Nat.cast_inj, Nat.cast_inj, ← hsx, ← hsy,
      length_filter_both_eq_fst_iff, length_filter_both_eq_snd_iff]
    constructor
    · rintro ⟨h1, h2⟩ p hp
      exact ⟨fun ha => h1 p hp ha, fun hb => h2 p hp hb⟩
    · intro hall
      exact ⟨fun p hp => (hall p hp).mp, fun p hp => (hall p hp).mpr⟩
  refine ⟨?_, ?_, by simp [russell_rao]⟩
  · intro hall
    simp only [russell_rao]
    rw [if_neg hg, if_pos (hcond.mpr hall)]
  · intro hnall
    simp only [russell_rao]
    rw [if_neg hg, if_neg (fun hc => hnall (hcond.mp hc))]

/-- Witness for russell_rao_spec: coincident true sets at ([1], [1]) and a
non-coincident pair at ([1,0], [1,1]). -/
theorem russell_rao_spec_witness :
    russell_rao [(1 : ℝ)] [(1 : ℝ)] = some 0 ∧
    russell_rao [(1 : ℝ), 0] [(1 : ℝ), 1] = some
      (((List.length [(1 : ℝ), 0] : ℝ) -
        (((([(1 : ℝ), 0].zip [(1 : ℝ), 1]).filter
            fun p => p.1 ≠ 0 ∧ p.2 ≠ 0).length : ℕ) : ℝ)) /
        (List.length [(1 : ℝ), 0] : ℝ)) := by
  constructor
  · exact (russell_rao_spec [(1 : ℝ)] [(1 : ℝ)] rfl).1 (by norm_num)
  · refine (russell_rao_spec [(1 : ℝ), 0] [(1 : ℝ), 1] rfl).2.1 ?_
    intro hall
    have := hall ((0 : ℝ), (1 : ℝ)) (by norm_num)
    norm_num at this

lemma getD_zip_eq_pair (x y : List ℝ) (k : ℕ) (hk : k < x.length) (hky : k < y.length) :
    (x.zip y).getD k (0, 0) = (x.getD k 0, y.getD k 0) := by
  induction x generalizing y k with
  | nil => simp at hk
  | cons a t ih =>
    cases y with
    | nil => simp at hky
    | cons b u =>
      cases k with
      | zero => simp
      | succ k' =>
        simp only [List.zip_cons_cons, List.getD_cons_succ]
        exact ih u k' (by simpa using hk) (by simpa using hky)

lemma getD_map_range (n : ℕ) (f : ℕ → ℝ) (j : ℕ) (hj : j < n) (d : ℝ) :
    ((List.range n).map f).getD j d = f j := by
  simp [List.getD_eq_getElem?_getD, List.getElem?_map, List.getElem?_range, hj]

lemma rustSignum_eq_sign (r : ℝ) (h : r ≠ 0) : rustSignum r = Real.sign r := by
  rcases lt_trichotomy r 0 with h1 | h1 | h1
  · rw [rustSignum, if_pos h1, Real.sign_of_neg h1]
  · exact absurd h1 h
  · rw [rustSignum, if_neg (not_lt.mpr (le_of_lt h1)), Real.sign_of_pos h1]

lemma chebGradLoop_cases (l : List (ℝ × ℝ)) (i : ℕ) (res : ℝ) (mi : ℕ) :
    (chebGradLoop l i (res, mi) = (res, mi) ∧
      ∀ k < l.length, |(l.getD k (0, 0)).1 - (l.getD k (0, 0)).2| ≤ res) ∨
    (∃ j < l.length,
      chebGradLoop l i (res, mi) =
        (|(l.getD j (0, 0)).1 - (l.getD j (0, 0)).2|, i + j) ∧
      res < |(l.getD j (0, 0)).1 - (l.getD j (0, 0)).2| ∧
      (∀ k < j, |(l.getD k (0, 0)).1 - (l.getD k (0, 0)).2| <
        |(l.getD j (0, 0)).1 - (l.getD j (0, 0)).2|) ∧
      (∀ k < l.length, |(l.getD k (0, 0)).1 - (l.getD k (0, 0)).2| ≤
        |(l.getD j (0, 0)).1 - (l.getD j (0, 0)).2|)) := by
  induction l generalizing i res mi with
  | nil =>
    left
    exact ⟨rfl, fun k hk => by simp at hk⟩
  | cons p t ih =>
    simp only [chebGradLoop]
    by_cases hp : |p.1 - p.2| > res
    · rw [if_pos hp]
      rcases ih (i + 1) |p.1 - p.2| i with ⟨heq, hall⟩ | ⟨j, hj, heq, hgt, hfirst, hall⟩
      · right
        refine ⟨0, by simp, ?_, ?_, ?_, ?_⟩
        · rw [heq]
          simp [Nat.add_zero]
        · simpa using hp
        · intro k hk
          exact absurd hk (Nat.not_lt_zero k)
        · intro k hk
          cases k with
          | zero => simp
          | succ k' =>
            simp only [List.getD_cons_succ, List.getD_cons_zero]
            exact hall k' (by simpa using hk)
      · right
        refine ⟨j + 1, by simpa using hj, ?_, ?_, ?_, ?_⟩
        · rw [heq]
          simp only [List.getD_cons_succ]
          congr 1
          omega
        · simp only [List.getD_cons_succ]
          exact lt_trans hp hgt
        · intro k hk
          cases k with
          | zero =>
            simp only [List.getD_cons_succ, List.getD_cons_zero]
            exact hgt
          | succ k' =>
            simp only [List.getD_cons_succ]
            exact hfirst k' (by omega)
        · intro k hk
          cases k with
          | zero =>
            simp only [List.getD_cons_succ, List.getD_cons_zero]
            exact le_of_lt hgt
          | succ k' =>
            simp only [List.getD_cons_succ]
            exact hall k' (by simpa using hk)
    · rw [if_neg hp]
      rcases ih (i + 1) res mi with ⟨heq, hall⟩ | ⟨j, hj, heq, hgt, hfirst, hall⟩
      · left
        refine ⟨heq, ?_⟩
        intro k hk
        cases k with
        | zero =>
          simp only [List.getD_cons_zero]
          exact not_lt.mp hp
        | succ k' =>
          simp only [List.getD_cons_succ]
          exact hall k' (by simpa using hk)
      · right
        refine ⟨j + 1, by simpa using hj, ?_, ?_, ?_, ?_⟩
        · rw [heq]
          simp only [List.getD_cons_succ]
          congr 1
          omega
        · simp only [List.getD_cons_succ]
          exact hgt
        · intro k hk
          cases k with
          | zero =>
            simp only [List.getD_cons_succ, List.getD_cons_zero]
            exact lt_of_le_of_lt (not_lt.mp hp) hgt
          | succ k' =>
            simp only [List.getD_cons_succ]
            exact hfirst k' (by omega)
        · intro k hk
          cases k with
          | zero =>
            simp only [List.getD_cons_succ, List.getD_cons_zero]
            exact le_of_lt (lt_of_le_of_lt (not_lt.mp hp) hgt)
          | succ k' =>
            simp only [List.getD_cons_succ]
            exact hall k' (by simpa using hk)

/-- C8: for equal-length vectors, chebyshev_grad's gradient is zero at every
coordinate except the coordinate holding the maximum absolute difference,
where it is the sign of xᵢ − yᵢ; among tied maxima the first index is
selected (every earlier coordinate is strictly below the maximum), and a
zero distance gives the all-zero gradient. -/
theorem chebyshev_grad_spec (x y : List ℝ) (h : x.length = y.length) :
    ∃ d g, chebyshev_grad x y = some (d, g) ∧ g.length = x.length ∧
      ((d = 0 ∧ ∀ j < x.length, g.getD j 1 = 0) ∨
       (0 < d ∧ ∃ m < x.length,
         |x.getD m 0 - y.getD m 0| = d ∧
         (∀ k < m, |x.getD k 0 - y.getD k 0| < d) ∧
         (∀ k < x.length, |x.getD k 0 - y.getD k 0| ≤ d) ∧
         x.getD m 0 - y.getD m 0 ≠ 0 ∧
         g.getD m 1 = Real.sign (x.getD m 0 - y.getD m 0) ∧
         (∀ j < x.length, j ≠ m → g.getD j 1 = 0))) := by
  have hlen : (x.zip y).length = x.length := by
    rw [List.length_zip x y]
    omega
  have hzip : ∀ k < x.length,
      |(( x.zip y).getD k (0, 0)).1 - ((x.zip y).getD k (0, 0)).2| =
        |x.getD k 0 - y.getD k 0| := by
    intro k hk
    rw [getD_zip_eq_pair x y k hk (by omega)]
  simp only [chebyshev_grad]
  rw [if_pos h]
  rcases chebGradLoop_cases (x.zip y) 0 0 0 with ⟨heq, hall⟩ | ⟨j, hj, heq, hgt, hfirst, hall⟩
  · refine ⟨0, (List.range x.length).map (fun i =>
        if ((0 : ℝ), (0 : ℕ)).1 ≠ 0 ∧ i = ((0 : ℝ), (0 : ℕ)).2 then
          rustSignum (x.getD ((0 : ℝ), (0 : ℕ)).2 0 - y.getD ((0 : ℝ), (0 : ℕ)).2 0)
        else 0),
      by rw [heq], by simp, Or.inl ⟨rfl, ?_⟩⟩
    intro k hk
    rw [getD_map_range x.length _ k hk]
    norm_num
  · have hjx : j < x.length := by omega
    have habs : |((x.zip y).getD j (0, 0)).1 - ((x.zip y).getD j (0, 0)).2| =
        |x.getD j 0 - y.getD j 0| := hzip j hjx
    have hpos : 0 < |x.getD j 0 - y.getD j 0| := by rw [← habs]; exact hgt
    have hne : x.getD j 0 - y.getD j 0 ≠ 0 := by
      intro hc
      rw [hc] at hpos
      simp at hpos
    have heqS : chebGradLoop (x.zip y) 0 (0, 0) = (|x.getD j 0 - y.getD j 0|, j) := by
      rw [heq, habs]
      norm_num
    refine ⟨|x.getD j 0 - y.getD j 0|,
      (List.range x.length).map (fun i =>
        if (|x.getD j 0 - y.getD j 0|, j).1 ≠ 0 ∧ i = (|x.getD j 0 - y.getD j 0|, j).2 then
          rustSignum (x.getD (|x.getD j 0 - y.getD j 0|, j).2 0 -
            y.getD (|x.getD j 0 - y.getD j 0|, j).2 0)
        else 0),
      by rw [heqS], by simp, Or.inr ⟨hpos, j, hjx, rfl, ?_, ?_, hne, ?_, ?_⟩⟩
    · intro k hk
      rw [← hzip k (by omega), ← habs]
      exact hfirst k hk
    · intro k hk
      rw [← hzip k hk, ← habs]
      exact hall k (by omega)
    · rw [getD_map_range x.length _ j hjx]
      rw [if_pos ⟨ne_of_gt hpos, rfl⟩]
      exact rustSignum_eq_sign _ hne
    · intro k hk hkj
      rw [getD_map_range x.length _ k hk]
      rw [if_neg]
      rintro ⟨-, hc⟩
      exact hkj hc

/-- Witness for chebyshev_grad_spec at x = [1,2,3], y = [4,5,6]. -/
theorem chebyshev_grad_spec_witness :
    ∃ d g, chebyshev_grad [(1 : ℝ), 2, 3] [(4 : ℝ), 5, 6] = some (d, g) ∧
      g.length = List.length [(1 : ℝ), 2, 3] ∧
      ((d = 0 ∧ ∀ j < List.length [(1 : ℝ), 2, 3], g.getD j 1 = 0) ∨
       (0 < d ∧ ∃ m < List.length [(1 : ℝ), 2, 3],
         |[(1 : ℝ), 2, 3].getD m 0 - [(4 : ℝ), 5, 6].getD m 0| = d ∧
         (∀ k < m, |[(1 : ℝ), 2, 3].getD k 0 - [(4 : ℝ), 5, 6].getD k 0| < d) ∧
         (∀ k < List.length [(1 : ℝ), 2, 3],
           |[(1 : ℝ), 2, 3].getD k 0 - [(4 : ℝ), 5, 6].getD k 0| ≤ d) ∧
         [(1 : ℝ), 2, 3].getD m 0 - [(4 : ℝ), 5, 6].getD m 0 ≠ 0 ∧
         g.getD m 1 = Real.sign ([(1 : ℝ), 2, 3].getD m 0 - [(4 : ℝ), 5, 6].getD m 0) ∧
         (∀ j < List.length [(1 : ℝ), 2, 3], j ≠ m → g.getD j 1 = 0))) :=
  chebyshev_grad_spec [(1 : ℝ), 2, 3] [(4 : ℝ), 5, 6] rfl

/-- C9: on empty input the final division of matching is 0.0/0.0 and that of
rogers_tanimoto is (2·0)/(0+0), so both return the IEEE NaN value rather
than failing a contract or returning a numeric sentinel. -/
theorem matching_rogers_tanimoto_empty_nan :
    matching ([] : List ℝ) [] = some F64v.nan ∧
    rogers_tanimoto ([] : List ℝ) [] = some F64v.nan := by
  constructor
  · simp [matching, fdiv]
  · simp [rogers_tanimoto, fdiv]

/-- C10 counterexample: correlation's result is not a function of only the
first len(x) components of a longer y — the mean mu_y divides by y's full
length — so correlation([0,1], [0,1,0]) differs from correlation of [0,1]
against the first two components of [0,1,0]. -/
theorem correlation_not_determined_by_prefix :
    correlation [(0 : ℝ), 1] [(0 : ℝ), 1, 0] ≠
      correlation [(0 : ℝ), 1] (List.take (List.length [(0 : ℝ), 1]) [(0 : ℝ), 1, 0]) := by
  have e1 : correlation [(0 : ℝ), 1] (List.take (List.length [(0 : ℝ), 1]) [(0 : ℝ), 1, 0]) =
      some 0 := by
    norm_num [correlation, Finset.sum_range_succ]
    rw [← mul_inv, Real.mul_self_sqrt (by norm_num : (0 : ℝ) ≤ 2)]
    norm_num
  intro hcontra
  rw [e1] at hcontra
  norm_num [correlation, Finset.sum_range_succ] at hcontra
  have h9 : Real.sqrt 9 = 3 := by
    rw [show (9 : ℝ) = 3 ^ 2 by norm_num, Real.sqrt_sq (by norm_num : (0 : ℝ) ≤ 3)]
  rw [h9] at hcontra
  have h2 : Real.sqrt 2 ≠ 0 := ne_of_gt (Real.sqrt_pos.mpr (by norm_num))
  have h5 : Real.sqrt 5 ≠ 0 := ne_of_gt (Real.sqrt_pos.mpr (by norm_num))
  field_simp at hcontra
  nlinarith [Real.sq_sqrt (show (0 : ℝ) ≤ 2 by norm_num),
    Real.sq_sqrt (show (0 : ℝ) ≤ 5 by norm_num),
    Real.sqrt_nonneg 2, Real.sqrt_nonneg 5, hcontra]

/-- C10 amended: cosine, hellinger and correlation perform no length check:
a strictly longer second vector y is silently accepted; cosine and
hellinger then compute exactly the value they would on the first len(x)
components of y, while correlation's value depends on the first len(x)
components of y together with y's full length (which divides its mean). -/
theorem unchecked_longer_second_vector (x y : List ℝ) (h : x.length < y.length) :
    (cosine x y).isSome ∧ cosine x y = cosine x (y.take x.length) ∧
    (hellinger x y).isSome ∧ hellinger x y = hellinger x (y.take x.length) ∧
    (correlation x y).isSome ∧
    (∀ z : List ℝ, z.length = y.length → z.take x.length = y.take x.length →
      correlation x z = correlation x y) := by
  have hle : x.length ≤ y.length := le_of_lt h
  have hg : ¬ y.length < x.length := not_lt.mpr hle
  have htk : (y.take x.length).length = x.length := by
    simp only [List.length_take]
    omega
  have hgtk : ¬ (y.take x.length).length < x.length := by
    rw [htk]
    exact lt_irrefl _
  have hgd : ∀ i ∈ Finset.range x.length, (y.take x.length).getD i 0 = y.getD i 0 :=
    fun i hi => getD_take_of_lt y x.length i 0 (Finset.mem_range.mp hi)
  refine ⟨?_, ?_, ?_, ?_, ?_, ?_⟩
  · simp only [cosine]
    rw [if_neg hg]
    simp
  · have hs1 : (∑ i ∈ Finset.range x.length, x.getD i 0 * (y.take x.length).getD i 0) =
        ∑ i ∈ Finset.range x.length, x.getD i 0 * y.getD i 0 :=
      Finset.sum_congr rfl fun i hi => by rw [hgd i hi]
    have hs2 : (∑ i ∈ Finset.range x.length,
          (y.take x.length).getD i 0 * (y.take x.length).getD i 0) =
        ∑ i ∈ Finset.range x.length, y.getD i 0 * y.getD i 0 :=
      Finset.sum_congr rfl fun i hi => by rw [hgd i hi]
    simp only [cosine]
    rw [if_neg hg, if_neg hgtk, hs1, hs2]
  · simp only [hellinger]
    rw [if_neg hg]
    simp
  · have hs3 : (∑ i ∈ Finset.range x.length,
          Real.sqrt (x.getD i 0 * (y.take x.length).getD i 0)) =
        ∑ i ∈ Finset.range x.length, Real.sqrt (x.getD i 0 * y.getD i 0) :=
      Finset.sum_congr rfl fun i hi => by rw [hgd i hi]
    have hs4 : (∑ i ∈ Finset.range x.length, (y.take x.length).getD i 0) =
        ∑ i ∈ Finset.range x.length, y.getD i 0 :=
      Finset.sum_congr rfl fun i hi => hgd i hi
    simp only [hellinger]
    rw [if_neg hg, if_neg hgtk, hs3, hs4]
  · simp only [correlation]
    rw [if_neg hg]
    simp
  · intro z hz1 hz2
    have hzg : ¬ z.length < x.length := by omega
    have hgz : ∀ i ∈ Finset.range x.length, z.getD i 0 = y.getD i 0 := by
      intro i hi
      have hi' := Finset.mem_range.mp hi
      calc z.getD i 0 = (z.take x.length).getD i 0 :=
            (getD_take_of_lt z x.length i 0 hi').symm
        _ = (y.take x.length).getD i 0 := by rw [hz2]
        _ = y.getD i 0 := getD_take_of_lt y x.length i 0 hi'
    have hsum_z : (∑ i ∈ Finset.range x.length, z.getD i 0) =
        ∑ i ∈ Finset.range x.length, y.getD i 0 :=
      Finset.sum_congr rfl hgz
    have hlen_z : (z.length : ℝ) = (y.length : ℝ) := by rw [hz1]
    have hnorm_z : (∑ i ∈ Finset.range x.length,
          (z.getD i 0 - (∑ i ∈ Finset.range x.length, y.getD i 0) / (y.length : ℝ)) *
          (z.getD i 0 - (∑ i ∈ Finset.range x.length, y.getD i 0) / (y.length : ℝ))) =
        ∑ i ∈ Finset.range x.length,
          (y.getD i 0 - (∑ i ∈ Finset.range x.length, y.getD i 0) / (y.length : ℝ)) *
          (y.getD i 0 - (∑ i ∈ Finset.range x.length, y.getD i 0) / (y.length : ℝ)) :=
      Finset.sum_congr rfl fun i hi => by rw [hgz i hi]
    have hdot_z : (∑ i ∈ Finset.range x.length,
          (x.getD i 0 - (∑ i ∈ Finset.range x.length, x.getD i 0) / (x.length : ℝ)) *
          (z.getD i 0 - (∑ i ∈ Finset.range x.length, y.getD i 0) / (y.length : ℝ))) =
        ∑ i ∈ Finset.range x.length,
          (x.getD i 0 - (∑ i ∈ Finset.range x.length, x.getD i 0) / (x.length : ℝ)) *
          (y.getD i 0 - (∑ i ∈ Finset.range x.length, y.getD i 0) / (y.length : ℝ)) :=
      Finset.sum_congr rfl fun i hi => by rw [hgz i hi]
    simp only [correlation]
    rw [if_neg hzg, if_neg hg, hsum_z, hlen_z, hnorm_z, hdot_z]

/-- Witness for unchecked_longer_second_vector at x = [1], y = [1,2]. -/
theorem unchecked_longer_second_vector_witness :
    (cosine [(1 : ℝ)] [(1 : ℝ), 2]).isSome ∧
    cosine [(1 : ℝ)] [(1 : ℝ), 2] =
      cosine [(1 : ℝ)] ([(1 : ℝ), 2].take (List.length [(1 : ℝ)])) ∧
    (hellinger [(1 : ℝ)] [(1 : ℝ), 2]).isSome ∧
    hellinger [(1 : ℝ)] [(1 : ℝ), 2] =
      hellinger [(1 : ℝ)] ([(1 : ℝ), 2].take (List.length [(1 : ℝ)])) ∧
    (correlation [(1 : ℝ)] [(1 : ℝ), 2]).isSome ∧
    (∀ z : List ℝ, z.length = List.length [(1 : ℝ), 2] →
      z.take (List.length [(1 : ℝ)]) = [(1 : ℝ), 2].take (List.length [(1 : ℝ)]) →
      correlation [(1 : ℝ)] z = correlation [(1 : ℝ)] [(1 : ℝ), 2]) :=
  unchecked_longer_second_vector [(1 : ℝ)] [(1 : ℝ), 2] (by norm_num)

end FastDistances
